import Mathlib

set_option maxHeartbeats 1000000
set_option maxRecDepth 4000

/-!
Verification development for the Commit2Doc repository.

The repository is a TypeScript application that assembles commit records
from three providers (manual paste, GitHub REST, Azure DevOps REST) and
feeds them to a text-generation endpoint.  The definitions below are a
shallow embedding of the source files:

* src/services/azureService.ts   (parseAzureUrl, fetchAzureRepositories, fetchAzureCommit)
* src/services/githubService.ts  (fetchGitHubCommit)
* src/services/geminiService.ts  (generateDocumentation)
* src/App.tsx                    (handleAddCommit, handleRemoveCommit)
* src/components/CommitManager.tsx (handleManualAdd)

JavaScript strings are modelled as Lean `String` viewed as its list of
characters; the JavaScript string methods used by the source
(`substring`, `includes`, `split`, `startsWith`, `endsWith`,
`localeCompare`, regular-expression matching) are modelled by the
executable helpers below, which operate on `List Char`.  Network effects
are modelled by explicit oracle values describing the outcome of each
HTTP request; a function of type `String → ContentResult` stands for the
per-URL outcome of the per-file content requests.
-/

/-- Does the pattern (first argument) occur at the start of the text
(second argument)?  Model of anchored string matching. -/
def substrAt : List Char → List Char → Bool
  | [], _ => true
  | _ :: _, [] => false
  | p :: ps, c :: cs => p == c && substrAt ps cs

/-- Does the pattern (second argument) occur anywhere in the text (first
argument)?  Model of JavaScript `String.prototype.includes`. -/
def hasSubstr : List Char → List Char → Bool
  | [], pat => pat.isEmpty
  | c :: cs, pat => substrAt pat (c :: cs) || hasSubstr cs pat

/-- String wrapper for `hasSubstr`: does `s` contain `pat`? -/
def strContains (s pat : String) : Bool :=
  hasSubstr s.toList pat.toList

/-- String wrapper for `substrAt`: does `s` start with `pat`? -/
def strStarts (s pat : String) : Bool :=
  substrAt pat.toList s.toList

/-- Does the list end with the given suffix?  Model of JavaScript
`String.prototype.endsWith`. -/
def endsList (s suf : List Char) : Bool :=
  substrAt suf.reverse s.reverse

/-- Remove the given pattern from the head of a list, or fail. -/
def stripHead : List Char → List Char → Option (List Char)
  | [], cs => some cs
  | _ :: _, [] => none
  | p :: ps, c :: cs => if p = c then stripHead ps cs else none

/-- Split a character list on the separator character `/`, keeping empty
segments.  Model of JavaScript `String.prototype.split` with
separator `/`. -/
def splitOnSlash : List Char → List (List Char)
  | [] => [[]]
  | c :: cs =>
      if c = '/' then [] :: splitOnSlash cs
      else
        match splitOnSlash cs with
        | [] => [[c]]
        | s :: ss => (c :: s) :: ss

/-- First index of the string `"_git"` in a list of path segments.
Model of JavaScript `Array.prototype.indexOf` as used by
`parseAzureUrl`. -/
def gitIdx : List String → Option Nat
  | [] => none
  | s :: rest => if s = "_git" then some 0 else (gitIdx rest).map (· + 1)

/-- The first `n` characters of a string.  Model of JavaScript
`String.prototype.substring(0, n)` (the source only ever slices from
index 0). -/
def takeChars (s : String) (n : Nat) : String :=
  (s.toList.take n).asString

/-- The NUL character, as tested for by `text.includes('\0')` in
azureService.ts. -/
def nulChar : Char := Char.ofNat 0

-- ## Data model (src/types.ts)

/-- src/types.ts `enum CommitSource`. -/
inductive CommitSource
  | GITHUB
  | AZURE
  | MANUAL
deriving DecidableEq

/-- src/types.ts `interface Commit`.  The optional `author` and `date`
fields are modelled as `Option String` (absent = `none`). -/
structure Commit where
  id : String
  hash : String
  message : String
  diff : String
  author : Option String
  date : Option String
  source : CommitSource
deriving DecidableEq

/-- src/types.ts `interface GenerationConfig`. -/
structure GenerationConfig where
  extraInfo : String
  setupInstructions : String
  previousDocContent : Option String
deriving DecidableEq

/-- Failure kinds surfaced by the provider clients (the `throw new
Error(...)` sites of the services, classified as in the specification:
InvalidUrl, Unauthorized, NotFound, ProviderError, NetworkError). -/
inductive FetchError
  | invalidUrl
  | unauthorized
  | notFound (msg : String)
  | providerError (msg : String)
  | networkError
deriving DecidableEq

-- ## URL parsing (src/services/azureService.ts, src/services/githubService.ts)

/-- The nonempty path segments of a pathname, modelling the JavaScript
expression `pathname.split('/').filter(p => p)` of
azureService.ts. -/
def pathSegs (cs : List Char) : List String :=
  ((splitOnSlash cs).filter (· ≠ [])).map List.asString

/-- Host and path decomposition of the part of a URL after the scheme:
the host is everything before the first `/`, the rest is split into
nonempty path segments. -/
def parseHostPath (cs : List Char) : Option (String × List String) :=
  let host := cs.takeWhile (fun c => c ≠ '/')
  let path := cs.dropWhile (fun c => c ≠ '/')
  if host = [] then none
  else some (host.asString, pathSegs path)

/-- Host and path decomposition of a URL string, modelling the parts of
the JavaScript `URL` constructor that azureService.ts consumes
(`urlObj.hostname` and the path segments).  The model recognises the
`https://` and `http://` schemes and returns `none` otherwise (the
`URL` constructor throws on input with no scheme, which
`parseAzureUrl` turns into `null`).  Query and fragment components
are not modelled; none of the URLs of interest carry them. -/
def splitUrl (url : String) : Option (String × List String) :=
  match stripHead "https://".toList url.toList with
  | some rest => parseHostPath rest
  | none =>
      match stripHead "http://".toList url.toList with
      | some rest => parseHostPath rest
      | none => none

/-- azureService.ts `parseAzureUrl`: recognise
`dev.azure.com/org/project/_git/repo` and
`org.visualstudio.com/project/_git/repo` URLs, returning
`(org, project, repo)` or `none`. -/
def parseAzureUrl (url : String) : Option (String × String × String) :=
  match splitUrl url with
  | none => none
  | some (hostname, pathParts) =>
      let gitRepo : String :=
        match gitIdx pathParts with
        | some i => pathParts.getD (i + 1) ""
        | none => ""
      let triple : String × String × String :=
        if endsList hostname.toList "visualstudio.com".toList then
          ((hostname.toList.takeWhile (fun c => c ≠ '.')).asString,
           pathParts.getD 0 "",
           gitRepo)
        else if hostname = "dev.azure.com" then
          (pathParts.getD 0 "", pathParts.getD 1 "", gitRepo)
        else ("", "", "")
      match triple with
      | (org, project, repo) =>
          if org = "" ∨ project = "" ∨ repo = "" then none
          else some (org, project, repo)

/-- One attempt of the githubService.ts regular expression
`github\.com\/([^/]+)\/([^/]+)` anchored at the start of the given
character list. -/
def tryMatchGH (cs : List Char) : Option (String × String) :=
  match stripHead "github.com/".toList cs with
  | none => none
  | some rest =>
      let own := rest.takeWhile (fun c => c ≠ '/')
      let rest2 := rest.dropWhile (fun c => c ≠ '/')
      if own = [] then none
      else
        match rest2 with
        | [] => none
        | _ :: r3 =>
            let rep := r3.takeWhile (fun c => c ≠ '/')
            if rep = [] then none else some (own.asString, rep.asString)

/-- Leftmost match of the githubService.ts regular expression: try
`tryMatchGH` at every start position, left to right. -/
def scanGH : List Char → Option (String × String)
  | [] => none
  | c :: cs =>
      match tryMatchGH (c :: cs) with
      | some r => some r
      | none => scanGH cs

/-- githubService.ts owner/repo extraction:
`repoUrl.match(/github\.com\/([^/]+)\/([^/]+)/)`. -/
def parseGitHubUrl (url : String) : Option (String × String) :=
  scanGH url.toList

-- ## Repository listing (src/services/azureService.ts, fetchAzureRepositories)

/-- azureService.ts `interface AzureRepository`. -/
structure AzureRepository where
  id : String
  name : String
  webUrl : String
  project : String
deriving DecidableEq

/-- One raw repository item of the Azure list response
(`data.value`), with `project.name` flattened. -/
structure RepoRaw where
  id : String
  name : String
  webUrl : String
  projectName : String
deriving DecidableEq

/-- Outcome oracle for the repository-list request. -/
inductive RepoListResult
  | ok (value : List RepoRaw)
  | status401
  | status404
  | failOther
deriving DecidableEq

/-- Case-folded characters, modelling the case-insensitive primary
collation level of `String.prototype.localeCompare`. -/
def lowerList (cs : List Char) : List Char :=
  cs.map Char.toLower

/-- Strict lexicographic order on character lists by code point. -/
def lexLt : List Char → List Char → Bool
  | [], [] => false
  | [], _ :: _ => true
  | _ :: _, [] => false
  | a :: as, b :: bs => decide (a < b) || (decide (a = b) && lexLt as bs)

/-- Reflexive lexicographic order on character lists by code point. -/
def lexLe : List Char → List Char → Bool
  | [], _ => true
  | _ :: _, [] => false
  | a :: as, b :: bs => decide (a < b) || (decide (a = b) && lexLe as bs)

/-- Model of `a.localeCompare(b) <= 0`: locale collation compares
case-insensitively at the primary level and breaks ties with the raw
code points.  (The exact collation is host dependent; this model has
the documented behaviour on the inputs of interest, in particular
lowercase and uppercase letters interleave by letter rather than by
code point.) -/
def localeLe (a b : String) : Bool :=
  if lowerList a.toList = lowerList b.toList then lexLe a.toList b.toList
  else lexLt (lowerList a.toList) (lowerList b.toList)

/-- The mapping of one raw repository item to the returned interface
(azureService.ts: `data.value.map(repo => ({id, name, webUrl,
project: repo.project.name}))`). -/
def toAzureRepository (x : RepoRaw) : AzureRepository :=
  ⟨x.id, x.name, x.webUrl, x.projectName⟩

/-- The sort comparator of azureService.ts:
`(a, b) => a.name.localeCompare(b.name)` (as a le-test). -/
def repoNameLe (a b : AzureRepository) : Bool :=
  localeLe a.name b.name

/-- Insert an element into a list, before the first element it compares
no greater than. -/
def insertSorted (le : α → α → Bool) (x : α) : List α → List α
  | [] => [x]
  | y :: ys => if le x y then x :: y :: ys else y :: insertSorted le x ys

/-- Stable comparison sort, modelling `Array.prototype.sort` with a
comparator. -/
def sortWith (le : α → α → Bool) : List α → List α
  | [] => []
  | x :: xs => insertSorted le x (sortWith le xs)

/-- azureService.ts `fetchAzureRepositories`: on success, map the raw
items to `AzureRepository` and sort ascending by name with
`localeCompare`; 401 and 404 produce dedicated errors, other
non-success statuses a generic one.  The org-input normalisation and
auth-header construction have no effect on the returned value and are
not modelled. -/
def fetchAzureRepositories (orgInput token : String) (r : RepoListResult) :
    Except FetchError (List AzureRepository) :=
  match r with
  | .ok value =>
      .ok (sortWith repoNameLe (value.map toAzureRepository))
  | .status401 => .error .unauthorized
  | .status404 =>
      .error (.notFound ("Organization not found at the resolved base URL for " ++ orgInput ++ token))
  | .failOther => .error (.providerError "Failed to fetch repositories.")

-- ## Azure commit fetch (src/services/azureService.ts, fetchAzureCommit)

/-- One `change.item` of the Azure changes response. -/
structure ChangeItem where
  path : String
  url : String
  isFolder : Bool
deriving DecidableEq

/-- One entry of `changesData.changes`. -/
structure Change where
  item : ChangeItem
  changeType : String
deriving DecidableEq

/-- The commit-metadata fields consumed from the Azure single-commit
response (`commitId`, `comment`, `author?.name`, `author?.date`). -/
structure AzureCommitData where
  commitId : String
  comment : String
  authorName : Option String
  authorDate : Option String
deriving DecidableEq

/-- Outcome oracle for the single-commit metadata request. -/
inductive CommitMetaResult
  | ok (data : AzureCommitData)
  | status401
  | failStatus (msg : Option String)
  | throwErr
deriving DecidableEq

/-- Outcome oracle for the changed-files request. -/
inductive ChangesResult
  | ok (changes : List Change)
  | failStatus
  | throwErr
deriving DecidableEq

/-- Outcome oracle for one per-file content request: a success carrying
the body text, a response with non-success status, or a thrown
(transport) error; `throwErr` also covers a throw while reading the
body. -/
inductive ContentResult
  | ok (text : String)
  | failStatus
  | throwErr
deriving DecidableEq

/-- The three request outcomes an execution of `fetchAzureCommit` can
observe, with the per-file content outcome given per URL. -/
structure AzureWorld where
  commitMeta : CommitMetaResult
  changes : ChangesResult
  content : String → ContentResult

/-- azureService.ts, fetchAzureCommit inner loop: the text appended for
one per-file content fetch.  On a success the size/binary heuristic
embeds the first 5000 characters fenced, with a truncation marker
when longer; large or NUL-containing bodies are skipped with a note.
A response with non-success status appends nothing (the code only
handles `contentResponse.ok`); a thrown error is caught and appends a
note. -/
def fileContentBlock : ContentResult → String
  | .ok text =>
      if decide (text.length < 30000) && !(text.toList.contains nulChar) then
        "```\n" ++ takeChars text 5000
          ++ (if decide (text.length > 5000) then "\n... (truncated)" else "")
          ++ "\n```\n"
      else
        "(File too large or binary, content skipped)\n"
  | .failStatus => ""
  | .throwErr => "(Could not fetch file content)\n"

/-- azureService.ts, fetchAzureCommit: the transcript block for one
changed file: the `File:` header, then (for an `edit` or `add` that
is not a folder) the content block, then the separator line. -/
def changeBlock (f : String → ContentResult) (change : Change) : String :=
  "\nFile: " ++ change.item.path ++ " [" ++ change.changeType ++ "]\n"
    ++ (if (change.changeType == "edit" || change.changeType == "add")
            && !change.item.isFolder then
          fileContentBlock (f change.item.url)
        else "")
    ++ "---\n"

/-- azureService.ts, fetchAzureCommit: the `for (const change of
changes)` loop, concatenating the per-file blocks in order. -/
def diffBody (f : String → ContentResult) : List Change → String
  | [] => ""
  | ch :: rest => changeBlock f ch ++ diffBody f rest

/-- azureService.ts, fetchAzureCommit: the full `diffContent`
transcript, starting from the fixed header and depending on the
outcome of the changed-files request. -/
def buildDiff (cr : ChangesResult) (f : String → ContentResult) : String :=
  "## Changes Summary\n"
    ++ match cr with
       | .ok changes =>
           diffBody f changes
             ++ (if changes.length = 0 then "No file changes found in this commit." else "")
       | .failStatus => "Could not fetch changes list from Azure API."
       | .throwErr => ""

/-- azureService.ts `fetchAzureCommit`.  URL parsing failures and
commit-metadata failures are hard errors; a failed changed-files
request and failed per-file content requests only alter the
transcript.  A thrown (transport) error on the changes request
escapes through the outer catch as a hard error.  `uuid` stands for
the `crypto.randomUUID()` value. -/
def fetchAzureCommit (repoUrl commitHash : String) (w : AzureWorld) (uuid : String) :
    Except FetchError Commit :=
  match parseAzureUrl repoUrl with
  | none => .error .invalidUrl
  | some _ =>
      match w.commitMeta with
      | .status401 => .error .unauthorized
      | .failStatus msg =>
          .error (.providerError (msg.getD "Failed to fetch commit from Azure DevOps"))
      | .throwErr => .error .networkError
      | .ok data =>
          match w.changes with
          | .throwErr => .error .networkError
          | cr =>
              .ok { id := uuid
                  , hash := takeChars data.commitId 7
                  , message := data.comment
                  , diff := buildDiff cr w.content
                  , author := data.authorName
                  , date := data.authorDate
                  , source := .AZURE }

-- ## GitHub commit fetch (src/services/githubService.ts)

/-- One entry of the GitHub response field `files`. -/
structure GitHubFile where
  filename : String
  status : String
  patch : Option String
deriving DecidableEq

/-- The fields consumed from the GitHub single-commit response. -/
structure GitHubData where
  sha : String
  message : String
  authorName : String
  authorDate : String
  files : Option (List GitHubFile)
deriving DecidableEq

/-- Outcome oracle for the GitHub single-commit request. -/
inductive GitHubResult
  | ok (data : GitHubData)
  | failStatus (msg : Option String)
  | throwErr
deriving DecidableEq

/-- githubService.ts: the concatenated diff built from the per-file
patches (`[Binary or Large File]` when a patch is missing), joined
with blank lines; empty when the response carries no `files`
field. -/
def buildGitHubDiff : Option (List GitHubFile) → String
  | none => ""
  | some files =>
      String.intercalate "\n\n"
        (files.map (fun f =>
          "File: " ++ f.filename ++ " (" ++ f.status ++ ")\n"
            ++ f.patch.getD "[Binary or Large File]"))

/-- githubService.ts `fetchGitHubCommit`.  A URL the regular expression
does not match is rejected before the request is issued; the oracle
`w` stands for the outcome of the request. -/
def fetchGitHubCommit (repoUrl commitHash : String) (token : Option String)
    (w : GitHubResult) (uuid : String) : Except FetchError Commit :=
  match parseGitHubUrl repoUrl with
  | none => .error .invalidUrl
  | some _ =>
      match w with
      | .failStatus msg =>
          .error (.providerError (msg.getD "Failed to fetch commit from GitHub"))
      | .throwErr => .error .networkError
      | .ok data =>
          .ok { id := uuid
              , hash := takeChars data.sha 7
              , message := data.message
              , diff := buildGitHubDiff data.files
              , author := some data.authorName
              , date := some data.authorDate
              , source := .GITHUB }

-- ## Documentation generation (src/services/geminiService.ts)

/-- Outcome oracle for the text-generation call: a success carrying
`response.text` (absent or empty both count as carrying no text), or
a thrown error carrying `error.message`. -/
inductive GenResult
  | ok (text : Option String)
  | err (message : String)
deriving DecidableEq

/-- geminiService.ts `generateDocumentation`: on success return the
response text, or the fixed placeholder when the response carries no
text; on a thrown error return a Markdown error document embedding
the message.  The prompt string assembled from `commits` and `config`
only feeds the request and does not influence the returned value. -/
def generateDocumentation (commits : List Commit) (config : GenerationConfig)
    (r : GenResult) : String :=
  match r with
  | .ok t =>
      match t with
      | some s => if s = "" then "# Error: No content generated." else s
      | none => "# Error: No content generated."
  | .err m =>
      "# Generation Failed\n\nAn error occurred while communicating with the AI: " ++ m

-- ## Commit store (src/App.tsx)

/-- App.tsx `handleAddCommit`: append to the end of the list. -/
def handleAddCommit (commits : List Commit) (commit : Commit) : List Commit :=
  commits ++ [commit]

/-- App.tsx `handleRemoveCommit`: keep the entries whose id differs. -/
def handleRemoveCommit (commits : List Commit) (id : String) : List Commit :=
  commits.filter (fun c => c.id ≠ id)

-- ## Manual entry (src/components/CommitManager.tsx)

/-- CommitManager.tsx `handleManualAdd`: an empty diff is rejected;
otherwise a commit is built with the `manual` hash sentinel, the
message or its placeholder, no author, and the current time as
`date`.  `uuid` and `now` stand for `crypto.randomUUID()` and
`new Date().toISOString()`. -/
def handleManualAdd (uuid now manualDiff manualMessage : String) : Option Commit :=
  if manualDiff = "" then none
  else some
    { id := uuid
    , hash := "manual"
    , message := if manualMessage = "" then "Manual Diff Entry" else manualMessage
    , diff := manualDiff
    , author := none
    , date := some now
    , source := .MANUAL }

-- ## Helper lemmas about the string machinery

theorem substrAt_append_self (p r : List Char) : substrAt p (p ++ r) = true := by
  induction p with
  | nil => rfl
  | cons c cs ih => simp [substrAt, ih]

theorem hasSubstr_append_right (a m : List Char) :
    hasSubstr (a ++ m) m = true := by
  induction a with
  | nil =>
      cases m with
      | nil => rfl
      | cons c cs =>
          have h := substrAt_append_self (c :: cs) []
          simp at h
          simp [hasSubstr, h]
  | cons c cs ih => simp [hasSubstr, ih]

theorem hasSubstr_nil_pat (b : List Char) : hasSubstr b [] = true := by
  induction b with
  | nil => rfl
  | cons c cs ih => simp [hasSubstr, substrAt]

theorem hasSubstr_middle (a m b : List Char) :
    hasSubstr (a ++ m ++ b) m = true := by
  induction a with
  | nil =>
      cases m with
      | nil => simpa using hasSubstr_nil_pat b
      | cons c cs =>
          simp only [List.nil_append, List.cons_append, hasSubstr, Bool.or_eq_true]
          left
          simpa using substrAt_append_self (c :: cs) b
  | cons c cs ih =>
      simp only [List.cons_append, hasSubstr, Bool.or_eq_true]
      right
      simpa [List.append_assoc] using ih

theorem stripHead_self (p r : List Char) : stripHead p (p ++ r) = some r := by
  induction p with
  | nil => rfl
  | cons c cs ih => simp [stripHead, ih]

theorem stripHead_sound {p cs r : List Char} (h : stripHead p cs = some r) :
    cs = p ++ r := by
  induction p generalizing cs with
  | nil =>
      simp [stripHead] at h
      simpa using h
  | cons c ps ih =>
      cases cs with
      | nil => simp [stripHead] at h
      | cons d ds =>
          by_cases hc : c = d
          · subst hc
            simp [stripHead] at h
            simpa using ih h
          · simp [stripHead, hc] at h

theorem takeWhile_append_all {p : Char → Bool} {l : List Char} (r : List Char)
    (h : ∀ a ∈ l, p a = true) :
    (l ++ r).takeWhile p = l ++ r.takeWhile p := by
  induction l with
  | nil => rfl
  | cons c cs ih =>
      have hc : p c = true := h c (by simp)
      simp [List.takeWhile, hc]
      exact ih (fun a ha => h a (by simp [ha]))

theorem dropWhile_append_all {p : Char → Bool} {l : List Char} (r : List Char)
    (h : ∀ a ∈ l, p a = true) :
    (l ++ r).dropWhile p = r.dropWhile p := by
  induction l with
  | nil => rfl
  | cons c cs ih =>
      have hc : p c = true := h c (by simp)
      simp [List.dropWhile, hc]
      exact ih (fun a ha => h a (by simp [ha]))

theorem takeWhile_all {p : Char → Bool} {l : List Char}
    (h : ∀ a ∈ l, p a = true) : l.takeWhile p = l := by
  have := takeWhile_append_all (p := p) (l := l) [] h
  simpa using this

theorem splitOnSlash_ne_nil (cs : List Char) : splitOnSlash cs ≠ [] := by
  cases cs with
  | nil => simp [splitOnSlash]
  | cons c rest =>
      by_cases hc : c = '/'
      · simp [splitOnSlash, hc]
      · simp only [splitOnSlash, if_neg hc]
        cases h : splitOnSlash rest <;> simp

theorem splitOnSlash_seg {l : List Char} (r : List Char)
    (h : ∀ a ∈ l, (a ≠ '/')) :
    splitOnSlash (l ++ '/' :: r) = l :: splitOnSlash r := by
  induction l with
  | nil => simp [splitOnSlash]
  | cons c cs ih =>
      have hc : c ≠ '/' := h c (by simp)
      have ih2 := ih (fun a ha => h a (by simp [ha]))
      simp only [List.cons_append, splitOnSlash, if_neg hc, List.append_eq, ih2]

theorem splitOnSlash_no_slash {l : List Char} (h : ∀ a ∈ l, (a ≠ '/')) :
    splitOnSlash l = [l] := by
  induction l with
  | nil => rfl
  | cons c cs ih =>
      have hc : c ≠ '/' := h c (by simp)
      have ih2 := ih (fun a ha => h a (by simp [ha]))
      simp only [splitOnSlash, if_neg hc, ih2]

theorem gitIdx_none {l : List String} (h : "_git" ∉ l) : gitIdx l = none := by
  induction l with
  | nil => rfl
  | cons s rest ih =>
      have hs : s ≠ "_git" := by
        intro he
        exact h (by simp [he])
      have ih2 := ih (fun hm => h (by simp [hm]))
      simp [gitIdx, hs, ih2]

theorem gitIdx_last {l : List String} (h : "_git" ∉ l) :
    gitIdx (l ++ ["_git"]) = some l.length := by
  induction l with
  | nil => rfl
  | cons s rest ih =>
      have hs : s ≠ "_git" := by
        intro he
        exact h (by simp [he])
      have ih2 := ih (fun hm => h (by simp [hm]))
      simp [gitIdx, hs, ih2]

theorem toList_ne_nil {s : String} (h : s ≠ "") : s.toList ≠ [] := by
  cases s with
  | mk data =>
      cases data with
      | nil => exact absurd rfl h
      | cons c cs => simp [String.toList]

theorem asString_toList (s : String) : s.toList.asString = s := rfl

-- ## Order lemmas for the locale comparison model

theorem lexLt_irrefl (a : List Char) : lexLt a a = false := by
  induction a with
  | nil => rfl
  | cons c cs ih => simp [lexLt, ih]

theorem lexLt_trans {a b c : List Char} (h1 : lexLt a b = true)
    (h2 : lexLt b c = true) : lexLt a c = true := by
  induction a generalizing b c with
  | nil =>
      cases b with
      | nil => simp [lexLt] at h1
      | cons y ys =>
          cases c with
          | nil => simp [lexLt] at h2
          | cons z zs => simp [lexLt]
  | cons x xs ih =>
      cases b with
      | nil => simp [lexLt] at h1
      | cons y ys =>
          cases c with
          | nil => simp [lexLt] at h2
          | cons z zs =>
              simp only [lexLt, Bool.or_eq_true, Bool.and_eq_true, decide_eq_true_eq] at h1 h2 ⊢
              rcases h1 with h1 | ⟨he1, h1⟩
              · rcases h2 with h2 | ⟨he2, h2⟩
                · exact Or.inl (lt_trans h1 h2)
                · exact Or.inl (he2 ▸ h1)
              · rcases h2 with h2 | ⟨he2, h2⟩
                · exact Or.inl (he1 ▸ h2)
                · exact Or.inr ⟨he1.trans he2, ih h1 h2⟩

theorem lexLt_connex {a b : List Char} (h : a ≠ b) :
    lexLt a b = true ∨ lexLt b a = true := by
  induction a generalizing b with
  | nil =>
      cases b with
      | nil => exact absurd rfl h
      | cons y ys => exact Or.inl (by simp [lexLt])
  | cons x xs ih =>
      cases b with
      | nil => exact Or.inr (by simp [lexLt])
      | cons y ys =>
          rcases lt_trichotomy x y with hlt | heq | hgt
          · exact Or.inl (by simp [lexLt, hlt])
          · subst heq
            have hne : xs ≠ ys := by
              intro he
              exact h (by rw [he])
            rcases ih hne with h1 | h1
            · exact Or.inl (by simp [lexLt, h1])
            · exact Or.inr (by simp [lexLt, h1])
          · exact Or.inr (by simp [lexLt, hgt])

theorem lexLe_refl (a : List Char) : lexLe a a = true := by
  induction a with
  | nil => rfl
  | cons c cs ih => simp [lexLe, ih]

theorem lexLe_total (a b : List Char) : lexLe a b = true ∨ lexLe b a = true := by
  induction a generalizing b with
  | nil => exact Or.inl rfl
  | cons x xs ih =>
      cases b with
      | nil => exact Or.inr rfl
      | cons y ys =>
          rcases lt_trichotomy x y with hlt | heq | hgt
          · exact Or.inl (by simp [lexLe, hlt])
          · subst heq
            rcases ih ys with h1 | h1
            · exact Or.inl (by simp [lexLe, h1])
            · exact Or.inr (by simp [lexLe, h1])
          · exact Or.inr (by simp [lexLe, hgt])

theorem lexLe_trans {a b c : List Char} (h1 : lexLe a b = true)
    (h2 : lexLe b c = true) : lexLe a c = true := by
  induction a generalizing b c with
  | nil => rfl
  | cons x xs ih =>
      cases b with
      | nil => simp [lexLe] at h1
      | cons y ys =>
          cases c with
          | nil => simp [lexLe] at h2
          | cons z zs =>
              simp only [lexLe, Bool.or_eq_true, Bool.and_eq_true, decide_eq_true_eq] at h1 h2 ⊢
              rcases h1 with h1 | ⟨he1, h1⟩
              · rcases h2 with h2 | ⟨he2, h2⟩
                · exact Or.inl (lt_trans h1 h2)
                · exact Or.inl (he2 ▸ h1)
              · rcases h2 with h2 | ⟨he2, h2⟩
                · exact Or.inl (he1 ▸ h2)
                · exact Or.inr ⟨he1.trans he2, ih h1 h2⟩

theorem localeLe_total (a b : String) : localeLe a b = true ∨ localeLe b a = true := by
  unfold localeLe
  by_cases he : lowerList a.toList = lowerList b.toList
  · rw [if_pos he, if_pos he.symm]
    exact lexLe_total a.toList b.toList
  · rw [if_neg he, if_neg (fun h => he h.symm)]
    exact lexLt_connex he

theorem localeLe_trans {a b c : String} (h1 : localeLe a b = true)
    (h2 : localeLe b c = true) : localeLe a c = true := by
  unfold localeLe at h1 h2 ⊢
  by_cases hab : lowerList a.toList = lowerList b.toList
  · by_cases hbc : lowerList b.toList = lowerList c.toList
    · rw [if_pos hab] at h1
      rw [if_pos hbc] at h2
      rw [if_pos (hab.trans hbc)]
      exact lexLe_trans h1 h2
    · rw [if_pos hab] at h1
      rw [if_neg hbc] at h2
      rw [if_neg (fun h => hbc (hab ▸ h)), hab]
      exact h2
  · by_cases hbc : lowerList b.toList = lowerList c.toList
    · rw [if_neg hab] at h1
      rw [if_neg (fun h => hab (hbc ▸ h)), ← hbc]
      exact h1
    · rw [if_neg hab] at h1
      rw [if_neg hbc] at h2
      have hlt := lexLt_trans h1 h2
      have hne : lowerList a.toList ≠ lowerList c.toList := by
        intro he
        rw [he] at hlt
        rw [lexLt_irrefl] at hlt
        exact Bool.noConfusion hlt
      rw [if_neg hne]
      exact hlt

-- ## Sorting lemmas (for the repository listing)

theorem mem_insertSorted {le : α → α → Bool} {x z : α} {l : List α} :
    z ∈ insertSorted le x l ↔ z = x ∨ z ∈ l := by
  induction l with
  | nil => simp [insertSorted]
  | cons y ys ih =>
      by_cases h : le x y = true
      · simp [insertSorted, h]
      · simp [insertSorted, h, ih]
        tauto

theorem perm_insertSorted (le : α → α → Bool) (x : α) (l : List α) :
    (insertSorted le x l).Perm (x :: l) := by
  induction l with
  | nil => exact List.Perm.refl _
  | cons y ys ih =>
      by_cases h : le x y = true
      · rw [insertSorted, if_pos h]
      · rw [insertSorted, if_neg h]
        exact (ih.cons y).trans (List.Perm.swap x y ys)

theorem sortWith_perm (le : α → α → Bool) (l : List α) :
    (sortWith le l).Perm l := by
  induction l with
  | nil => exact List.Perm.refl _
  | cons x xs ih =>
      exact (perm_insertSorted le x (sortWith le xs)).trans (ih.cons x)

theorem pairwise_insertSorted {le : α → α → Bool}
    (htot : ∀ a b, le a b = true ∨ le b a = true)
    (htrans : ∀ {a b c}, le a b = true → le b c = true → le a c = true)
    {x : α} {l : List α} (h : l.Pairwise (fun a b => le a b = true)) :
    (insertSorted le x l).Pairwise (fun a b => le a b = true) := by
  induction l with
  | nil => simp [insertSorted]
  | cons y ys ih =>
      rcases List.pairwise_cons.mp h with ⟨hy, hys⟩
      by_cases hxy : le x y = true
      · rw [insertSorted, if_pos hxy]
        refine List.pairwise_cons.mpr ⟨?_, h⟩
        intro z hz
        rcases hz with _ | hz
        · exact hxy
        · exact htrans hxy (hy z (by assumption))
      · rw [insertSorted, if_neg hxy]
        refine List.pairwise_cons.mpr ⟨?_, ih hys⟩
        intro z hz
        rcases mem_insertSorted.mp hz with hz | hz
        · subst hz
          rcases htot z y with h1 | h1
          · exact absurd h1 hxy
          · exact h1
        · exact hy z hz

theorem sortWith_pairwise {le : α → α → Bool}
    (htot : ∀ a b, le a b = true ∨ le b a = true)
    (htrans : ∀ {a b c}, le a b = true → le b c = true → le a c = true)
    (l : List α) :
    (sortWith le l).Pairwise (fun a b => le a b = true) := by
  induction l with
  | nil => simp [sortWith]
  | cons x xs ih => exact pairwise_insertSorted htot htrans ih

-- ## URL decomposition lemmas

theorem toList_append (a b : String) : (a ++ b).toList = a.toList ++ b.toList :=
  String.data_append a b

theorem toList_asString (l : List Char) : l.asString.toList = l := rfl

theorem pathSegs_nil : pathSegs [] = [] := rfl

theorem pathSegs_slash (cs : List Char) : pathSegs ('/' :: cs) = pathSegs cs := by
  simp [pathSegs, splitOnSlash]

theorem pathSegs_seg {l : List Char} (r : List Char)
    (h : ∀ a ∈ l, a ≠ '/') (hne : l ≠ []) :
    pathSegs (l ++ '/' :: r) = l.asString :: pathSegs r := by
  simp [pathSegs, splitOnSlash_seg r h, hne]

theorem pathSegs_solo {l : List Char} (h : ∀ a ∈ l, a ≠ '/') (hne : l ≠ []) :
    pathSegs l = [l.asString] := by
  simp [pathSegs, splitOnSlash_no_slash h, hne]

theorem parseHostPath_eq (host : String) (p : List Char)
    (hh : host ≠ "") (hsl : ∀ a ∈ host.toList, a ≠ '/')
    (hp : p = [] ∨ ∃ q, p = '/' :: q) :
    parseHostPath (host.toList ++ p) = some (host, pathSegs p) := by
  have hdec : ∀ a ∈ host.toList, (fun c => decide (c ≠ '/')) a = true := by
    intro a ha
    simpa using hsl a ha
  unfold parseHostPath
  dsimp only
  rcases hp with hp | ⟨q, hp⟩
  · subst hp
    rw [List.append_nil]
    rw [takeWhile_all hdec]
    rw [if_neg (toList_ne_nil hh)]
    have hdrop : host.toList.dropWhile (fun c => decide (c ≠ '/')) = [] := by
      have := dropWhile_append_all (p := fun c => decide (c ≠ '/')) (l := host.toList) [] hdec
      simpa using this
    rw [hdrop]
    rw [asString_toList]
  · subst hp
    rw [takeWhile_append_all _ hdec, dropWhile_append_all _ hdec]
    have htw : List.takeWhile (fun c => decide (c ≠ '/')) ('/' :: q) = [] := by
      simp [List.takeWhile]
    have hdw : List.dropWhile (fun c => decide (c ≠ '/')) ('/' :: q) = '/' :: q := by
      simp [List.dropWhile]
    rw [htw, hdw, List.append_nil]
    rw [if_neg (toList_ne_nil hh)]
    rw [asString_toList]

theorem splitUrl_eq (url host : String) (p : List Char)
    (h : url.toList = "https://".toList ++ (host.toList ++ p))
    (hh : host ≠ "") (hsl : ∀ a ∈ host.toList, a ≠ '/')
    (hp : p = [] ∨ ∃ q, p = '/' :: q) :
    splitUrl url = some (host, pathSegs p) := by
  unfold splitUrl
  rw [h, stripHead_self]
  exact parseHostPath_eq host p hh hsl hp

theorem fetchAzureCommit_of_parse_none {url : String}
    (h : parseAzureUrl url = none) (hash : String) (w : AzureWorld) (uuid : String) :
    fetchAzureCommit url hash w uuid = .error .invalidUrl := by
  unfold fetchAzureCommit
  rw [h]

theorem parseAzureUrl_dev (org project repo : String)
    (ho : org ≠ "") (hos : ∀ a ∈ org.toList, a ≠ '/') (hog : org ≠ "_git")
    (hp : project ≠ "") (hps : ∀ a ∈ project.toList, a ≠ '/') (hpg : project ≠ "_git")
    (hr : repo ≠ "") (hrs : ∀ a ∈ repo.toList, a ≠ '/') :
    parseAzureUrl ("https://dev.azure.com/" ++ org ++ "/" ++ project ++ "/_git/" ++ repo)
      = some (org, project, repo) := by
  have hurl : ("https://dev.azure.com/" ++ org ++ "/" ++ project ++ "/_git/" ++ repo).toList
      = "https://".toList ++ ("dev.azure.com".toList ++
        ('/' :: (org.toList ++ '/' :: (project.toList ++ '/' ::
          ("_git".toList ++ '/' :: repo.toList))))) := by
    simp only [toList_append, List.append_assoc]
    rfl
  have hsplit := splitUrl_eq _ "dev.azure.com"
      ('/' :: (org.toList ++ '/' :: (project.toList ++ '/' ::
        ("_git".toList ++ '/' :: repo.toList))))
      hurl (by decide) (by decide) (Or.inr ⟨_, rfl⟩)
  have hsegs : pathSegs ('/' :: (org.toList ++ '/' :: (project.toList ++ '/' ::
      ("_git".toList ++ '/' :: repo.toList)))) = [org, project, "_git", repo] := by
    rw [pathSegs_slash]
    rw [pathSegs_seg _ hos (toList_ne_nil ho)]
    rw [pathSegs_seg _ hps (toList_ne_nil hp)]
    rw [pathSegs_seg _ (by decide) (by decide)]
    rw [pathSegs_solo hrs (toList_ne_nil hr)]
    rfl
  rw [hsegs] at hsplit
  unfold parseAzureUrl
  rw [hsplit]
  dsimp only
  rw [if_neg (by decide : ¬(endsList "dev.azure.com".toList "visualstudio.com".toList = true))]
  rw [if_pos rfl]
  have hg : gitIdx [org, project, "_git", repo] = some 2 := by
    simp [gitIdx, hog, hpg]
  rw [hg]
  dsimp only
  simp only [List.getD_cons_zero, List.getD_cons_succ]
  rw [if_neg (by simp [ho, hp, hr])]

theorem parseAzureUrl_vs (org project repo : String)
    (ho : org ≠ "") (hos : ∀ a ∈ org.toList, a ≠ '/') (hod : ∀ a ∈ org.toList, a ≠ '.')
    (hp : project ≠ "") (hps : ∀ a ∈ project.toList, a ≠ '/') (hpg : project ≠ "_git")
    (hr : repo ≠ "") (hrs : ∀ a ∈ repo.toList, a ≠ '/') :
    parseAzureUrl ("https://" ++ org ++ ".visualstudio.com/" ++ project ++ "/_git/" ++ repo)
      = some (org, project, repo) := by
  have hurl : ("https://" ++ org ++ ".visualstudio.com/" ++ project ++ "/_git/" ++ repo).toList
      = "https://".toList ++ ((org ++ ".visualstudio.com").toList ++
        ('/' :: (project.toList ++ '/' :: ("_git".toList ++ '/' :: repo.toList)))) := by
    simp only [toList_append, List.append_assoc]
    rfl
  have hhost_ne : (org ++ ".visualstudio.com") ≠ "" := by
    intro he
    have : (org ++ ".visualstudio.com").toList = [] := by rw [he]; rfl
    rw [toList_append] at this
    simp at this
  have hhost_sl : ∀ a ∈ (org ++ ".visualstudio.com").toList, a ≠ '/' := by
    intro a ha
    rw [toList_append] at ha
    rcases List.mem_append.mp ha with ha | ha
    · exact hos a ha
    · fin_cases ha <;> decide
  have hsplit := splitUrl_eq _ (org ++ ".visualstudio.com")
      ('/' :: (project.toList ++ '/' :: ("_git".toList ++ '/' :: repo.toList)))
      hurl hhost_ne hhost_sl (Or.inr ⟨_, rfl⟩)
  have hsegs : pathSegs ('/' :: (project.toList ++ '/' ::
      ("_git".toList ++ '/' :: repo.toList))) = [project, "_git", repo] := by
    rw [pathSegs_slash]
    rw [pathSegs_seg _ hps (toList_ne_nil hp)]
    rw [pathSegs_seg _ (by decide) (by decide)]
    rw [pathSegs_solo hrs (toList_ne_nil hr)]
    rfl
  rw [hsegs] at hsplit
  have hends : endsList (org ++ ".visualstudio.com").toList "visualstudio.com".toList = true := by
    have hsplit2 : (org ++ ".visualstudio.com").toList
        = (org.toList ++ ['.']) ++ "visualstudio.com".toList := by
      rw [toList_append]
      simp only [List.append_assoc]
      rfl
    rw [hsplit2]
    unfold endsList
    rw [List.reverse_append]
    exact substrAt_append_self _ _
  have htake : ((org ++ ".visualstudio.com").toList.takeWhile (fun c => decide (c ≠ '.'))).asString
      = org := by
    have hsplit2 : (org ++ ".visualstudio.com").toList
        = org.toList ++ '.' :: "visualstudio.com".toList := by
      rw [toList_append]
      rfl
    rw [hsplit2]
    have hdec : ∀ a ∈ org.toList, (fun c => decide (c ≠ '.')) a = true := by
      intro a ha
      simpa using hod a ha
    rw [takeWhile_append_all _ hdec]
    have : List.takeWhile (fun c => decide (c ≠ '.')) ('.' :: "visualstudio.com".toList) = [] := by
      simp [List.takeWhile]
    rw [this, List.append_nil, asString_toList]
  unfold parseAzureUrl
  rw [hsplit]
  dsimp only
  rw [if_pos hends]
  have hg : gitIdx [project, "_git", repo] = some 1 := by
    simp [gitIdx, hpg]
  rw [hg]
  dsimp only
  simp only [List.getD_cons_zero, List.getD_cons_succ]
  rw [htake]
  rw [if_neg (by simp [ho, hp, hr])]

/-- Join path segments with `/` separators (inverse of `pathSegs`, used
to state theorems about whole families of URLs). -/
def joinSegs : List String → List Char
  | [] => []
  | [s] => s.toList
  | s :: s2 :: rest => s.toList ++ '/' :: joinSegs (s2 :: rest)

theorem pathSegs_join (segs : List String)
    (hall : ∀ s ∈ segs, s ≠ "" ∧ ∀ a ∈ s.toList, a ≠ '/') :
    pathSegs (joinSegs segs) = segs := by
  induction segs with
  | nil => rfl
  | cons s rest ih =>
      cases rest with
      | nil =>
          have hs := hall s (by simp)
          show pathSegs s.toList = [s]
          rw [pathSegs_solo hs.2 (toList_ne_nil hs.1)]
          rfl
      | cons s2 r2 =>
          have hs := hall s (by simp)
          show pathSegs (s.toList ++ '/' :: joinSegs (s2 :: r2)) = s :: s2 :: r2
          rw [pathSegs_seg _ hs.2 (toList_ne_nil hs.1)]
          rw [ih (fun x hx => hall x (by simp [hx]))]
          rfl

theorem parseAzureUrl_no_git (host : String) (segs : List String)
    (hh : host ≠ "") (hhs : ∀ a ∈ host.toList, a ≠ '/')
    (hall : ∀ s ∈ segs, s ≠ "" ∧ ∀ a ∈ s.toList, a ≠ '/')
    (hng : "_git" ∉ segs) :
    parseAzureUrl ("https://" ++ host ++ "/" ++ (joinSegs segs).asString) = none := by
  have hurl : ("https://" ++ host ++ "/" ++ (joinSegs segs).asString).toList
      = "https://".toList ++ (host.toList ++ '/' :: joinSegs segs) := by
    simp only [toList_append, List.append_assoc, toList_asString]
    rfl
  have hsplit := splitUrl_eq _ host ('/' :: joinSegs segs) hurl hh hhs (Or.inr ⟨_, rfl⟩)
  have hsegs : pathSegs ('/' :: joinSegs segs) = segs := by
    rw [pathSegs_slash]
    exact pathSegs_join segs hall
  rw [hsegs] at hsplit
  unfold parseAzureUrl
  rw [hsplit]
  dsimp only
  rw [gitIdx_none hng]
  dsimp only
  by_cases h1 : endsList host.toList "visualstudio.com".toList = true
  · rw [if_pos h1]
    dsimp only
    rw [if_pos (by simp)]
  · rw [if_neg h1]
    by_cases h2 : host = "dev.azure.com"
    · rw [if_pos h2]
      dsimp only
      rw [if_pos (by simp)]
    · rw [if_neg h2]
      dsimp only
      rw [if_pos (by simp)]

theorem parseAzureUrl_git_last (host : String) (segs : List String)
    (hh : host ≠ "") (hhs : ∀ a ∈ host.toList, a ≠ '/')
    (hall : ∀ s ∈ segs, s ≠ "" ∧ ∀ a ∈ s.toList, a ≠ '/')
    (hng : "_git" ∉ segs) :
    parseAzureUrl ("https://" ++ host ++ "/" ++ (joinSegs (segs ++ ["_git"])).asString)
      = none := by
  have hall2 : ∀ s ∈ segs ++ ["_git"], s ≠ "" ∧ ∀ a ∈ s.toList, a ≠ '/' := by
    intro s hs
    rcases List.mem_append.mp hs with hs | hs
    · exact hall s hs
    · simp at hs
      subst hs
      refine ⟨by decide, ?_⟩
      intro a ha
      fin_cases ha <;> decide
  have hurl : ("https://" ++ host ++ "/" ++ (joinSegs (segs ++ ["_git"])).asString).toList
      = "https://".toList ++ (host.toList ++ '/' :: joinSegs (segs ++ ["_git"])) := by
    simp only [toList_append, List.append_assoc, toList_asString]
    rfl
  have hsplit := splitUrl_eq _ host ('/' :: joinSegs (segs ++ ["_git"])) hurl hh hhs
    (Or.inr ⟨_, rfl⟩)
  have hsegs : pathSegs ('/' :: joinSegs (segs ++ ["_git"])) = segs ++ ["_git"] := by
    rw [pathSegs_slash]
    exact pathSegs_join _ hall2
  rw [hsegs] at hsplit
  unfold parseAzureUrl
  rw [hsplit]
  dsimp only
  rw [gitIdx_last hng]
  dsimp only
  have hgetd : (segs ++ ["_git"]).getD (segs.length + 1) "" = "" := by
    apply List.getD_eq_default
    simp
  rw [hgetd]
  by_cases h1 : endsList host.toList "visualstudio.com".toList = true
  · rw [if_pos h1]
    dsimp only
    rw [if_pos (by simp)]
  · rw [if_neg h1]
    by_cases h2 : host = "dev.azure.com"
    · rw [if_pos h2]
      dsimp only
      rw [if_pos (by simp)]
    · rw [if_neg h2]
      dsimp only
      rw [if_pos (by simp)]

-- ## GitHub URL matching lemmas

theorem stripHead_ne_head {p c : Char} {ps cs : List Char} (h : p ≠ c) :
    stripHead (p :: ps) (c :: cs) = none := by
  simp [stripHead, h]

theorem tryMatchGH_head_ne {c : Char} {cs : List Char} (h : c ≠ 'g') :
    tryMatchGH (c :: cs) = none := by
  unfold tryMatchGH
  have hs : stripHead "github.com/".toList (c :: cs) = none := by
    show stripHead ('g' :: "ithub.com/".toList) (c :: cs) = none
    exact stripHead_ne_head (fun he => h he.symm)
  rw [hs]

theorem scanGH_cons_fail {c : Char} {cs : List Char}
    (h : tryMatchGH (c :: cs) = none) : scanGH (c :: cs) = scanGH cs := by
  show (match tryMatchGH (c :: cs) with
        | some r => some r
        | none => scanGH cs) = scanGH cs
  rw [h]

theorem scanGH_cons_some {c : Char} {cs : List Char} {r : String × String}
    (h : tryMatchGH (c :: cs) = some r) : scanGH (c :: cs) = some r := by
  show (match tryMatchGH (c :: cs) with
        | some r => some r
        | none => scanGH cs) = some r
  rw [h]

theorem tryMatchGH_eq (own : List Char) (hne : own ≠ []) (hsl : ∀ a ∈ own, a ≠ '/')
    (r3 : List Char) :
    tryMatchGH ("github.com/".toList ++ (own ++ '/' :: r3)) =
      if r3.takeWhile (fun c => decide (c ≠ '/')) = [] then none
      else some (own.asString, (r3.takeWhile (fun c => decide (c ≠ '/'))).asString) := by
  have hdec : ∀ a ∈ own, (fun c => decide (c ≠ '/')) a = true := by
    intro a ha
    simpa using hsl a ha
  unfold tryMatchGH
  rw [stripHead_self]
  dsimp only
  rw [takeWhile_append_all _ hdec, dropWhile_append_all _ hdec]
  have htw : List.takeWhile (fun c => decide (c ≠ '/')) ('/' :: r3) = [] := by
    simp [List.takeWhile]
  have hdw : List.dropWhile (fun c => decide (c ≠ '/')) ('/' :: r3) = '/' :: r3 := by
    simp [List.dropWhile]
  rw [htw, hdw, List.append_nil]
  rw [if_neg hne]

theorem dropWhile_cons_false {p : Char → Bool} {l t : List Char} {a : Char}
    (h : l.dropWhile p = a :: t) : p a = false := by
  induction l with
  | nil => simp [List.dropWhile] at h
  | cons c cs ih =>
      by_cases hc : p c = true
      · rw [List.dropWhile_cons_of_pos hc] at h
        exact ih h
      · rw [List.dropWhile_cons_of_neg hc] at h
        cases h
        simpa using hc

theorem tryMatchGH_sound {cs : List Char} {r : String × String}
    (h : tryMatchGH cs = some r) :
    ∃ own c rest, cs = "github.com/".toList ++ (own ++ '/' :: c :: rest)
      ∧ own ≠ [] ∧ (∀ a ∈ own, a ≠ '/') ∧ c ≠ '/' := by
  unfold tryMatchGH at h
  cases hs : stripHead "github.com/".toList cs with
  | none => rw [hs] at h; exact absurd h (by simp)
  | some rest =>
      rw [hs] at h
      dsimp only at h
      have hcs := stripHead_sound hs
      by_cases hown : rest.takeWhile (fun c => decide (c ≠ '/')) = []
      · rw [if_pos hown] at h
        exact absurd h (by simp)
      · rw [if_neg hown] at h
        cases hd : rest.dropWhile (fun c => decide (c ≠ '/')) with
        | nil => rw [hd] at h; exact absurd h (by simp)
        | cons d r3 =>
            rw [hd] at h
            dsimp only at h
            have hdfalse : (fun c => decide (c ≠ '/')) d = false := dropWhile_cons_false hd
            have hdeq : d = '/' := by simpa using hdfalse
            subst hdeq
            by_cases hr3 : r3.takeWhile (fun c => decide (c ≠ '/')) = []
            · rw [if_pos hr3] at h
              exact absurd h (by simp)
            · cases r3 with
              | nil => exact absurd rfl hr3
              | cons f r5 =>
                  by_cases hf : (fun c => decide (c ≠ '/')) f = true
                  · have hrest : rest = rest.takeWhile (fun c => decide (c ≠ '/'))
                        ++ '/' :: f :: r5 := by
                      conv_lhs => rw [← List.takeWhile_append_dropWhile
                        (p := fun c => decide (c ≠ '/')) (l := rest)]
                      rw [hd]
                    refine ⟨rest.takeWhile (fun c => decide (c ≠ '/')), f, r5, ?_, hown, ?_, ?_⟩
                    · rw [hcs]
                      exact congrArg _ hrest
                    · intro a ha
                      have := List.mem_takeWhile_imp ha
                      simpa using this
                    · simpa using hf
                  · rw [List.takeWhile_cons, if_neg hf] at hr3
                    exact absurd rfl hr3

theorem scanGH_sound {cs : List Char} {r : String × String}
    (h : scanGH cs = some r) :
    ∃ pre own c rest, cs = pre ++ ("github.com/".toList ++ (own ++ '/' :: c :: rest))
      ∧ own ≠ [] ∧ (∀ a ∈ own, a ≠ '/') ∧ c ≠ '/' := by
  induction cs with
  | nil => simp [scanGH] at h
  | cons d ds ih =>
      unfold scanGH at h
      cases ht : tryMatchGH (d :: ds) with
      | some r2 =>
          rw [ht] at h
          obtain ⟨own, c, rest, heq, h1, h2, h3⟩ := tryMatchGH_sound ht
          exact ⟨[], own, c, rest, by simpa using heq, h1, h2, h3⟩
      | none =>
          rw [ht] at h
          dsimp only at h
          obtain ⟨pre, own, c, rest, heq, h1, h2, h3⟩ := ih h
          exact ⟨d :: pre, own, c, rest, by simp [heq], h1, h2, h3⟩

theorem scanGH_complete (pre own : List Char) (c : Char) (rest : List Char)
    (hne : own ≠ []) (hsl : ∀ a ∈ own, a ≠ '/') (hc : c ≠ '/') :
    ∃ r, scanGH (pre ++ ("github.com/".toList ++ (own ++ '/' :: c :: rest))) = some r := by
  induction pre with
  | nil =>
      have hm := tryMatchGH_eq own hne hsl (c :: rest)
      rw [List.takeWhile_cons_of_pos (by simpa using hc)] at hm
      rw [if_neg (by simp)] at hm
      have hm2 : tryMatchGH ('g' :: ("ithub.com/".toList ++ (own ++ '/' :: c :: rest)))
          = some (own.asString,
              (c :: List.takeWhile (fun x => decide (x ≠ '/')) rest).asString) := hm
      refine ⟨(own.asString,
        (c :: List.takeWhile (fun x => decide (x ≠ '/')) rest).asString), ?_⟩
      show scanGH ('g' :: ("ithub.com/".toList ++ (own ++ '/' :: c :: rest))) = _
      exact scanGH_cons_some hm2
  | cons p pre2 ih =>
      obtain ⟨r, hr⟩ := ih
      cases ht : tryMatchGH (p :: (pre2 ++ ("github.com/".toList ++ (own ++ '/' :: c :: rest)))) with
      | some r2 =>
          refine ⟨r2, ?_⟩
          rw [List.cons_append]
          exact scanGH_cons_some ht
      | none =>
          refine ⟨r, ?_⟩
          rw [List.cons_append, scanGH_cons_fail ht]
          exact hr

/-- The structural condition under which the githubService.ts regular
expression has a match: somewhere in the string, `github.com/` is
followed by a nonempty slash-free run, a `/`, and at least one more
character that is not a `/`. -/
def ghShape (url : String) : Prop :=
  ∃ pre own c rest, url.toList = pre ++ ("github.com/".toList ++ (own ++ '/' :: c :: rest))
    ∧ own ≠ [] ∧ (∀ a ∈ own, a ≠ '/') ∧ c ≠ '/'

theorem parseGitHubUrl_none_of_not_shape {url : String} (h : ¬ ghShape url) :
    parseGitHubUrl url = none := by
  cases hp : parseGitHubUrl url with
  | none => rfl
  | some r =>
      obtain ⟨pre, own, c, rest, heq, h1, h2, h3⟩ := scanGH_sound hp
      exact absurd ⟨pre, own, c, rest, heq, h1, h2, h3⟩ h

theorem ghShape_of_parse_some {url : String} {r : String × String}
    (h : parseGitHubUrl url = some r) : ghShape url :=
  scanGH_sound h

theorem not_ghShape_of_parse_none {url : String} (h : parseGitHubUrl url = none) :
    ¬ ghShape url := by
  intro hsh
  obtain ⟨pre, own, c, rest, heq, h1, h2, h3⟩ := hsh
  obtain ⟨r, hr⟩ := scanGH_complete pre own c rest h1 h2 h3
  unfold parseGitHubUrl at h
  rw [heq] at h
  rw [h] at hr
  exact Option.noConfusion hr

theorem parseGitHubUrl_eq (owner repo suf : String)
    (ho : owner ≠ "") (hos : ∀ a ∈ owner.toList, a ≠ '/')
    (hr : repo ≠ "") (hrs : ∀ a ∈ repo.toList, a ≠ '/')
    (hsuf : suf = "" ∨ ∃ q, suf.toList = '/' :: q) :
    parseGitHubUrl ("https://github.com/" ++ owner ++ "/" ++ repo ++ suf)
      = some (owner, repo) := by
  have hurl : ("https://github.com/" ++ owner ++ "/" ++ repo ++ suf).toList
      = 'h' :: 't' :: 't' :: 'p' :: 's' :: ':' :: '/' :: '/' ::
        ("github.com/".toList ++ (owner.toList ++ '/' :: (repo.toList ++ suf.toList))) := by
    simp only [toList_append, List.append_assoc]
    rfl
  unfold parseGitHubUrl
  rw [hurl]
  rw [scanGH_cons_fail (tryMatchGH_head_ne (by decide))]
  rw [scanGH_cons_fail (tryMatchGH_head_ne (by decide))]
  rw [scanGH_cons_fail (tryMatchGH_head_ne (by decide))]
  rw [scanGH_cons_fail (tryMatchGH_head_ne (by decide))]
  rw [scanGH_cons_fail (tryMatchGH_head_ne (by decide))]
  rw [scanGH_cons_fail (tryMatchGH_head_ne (by decide))]
  rw [scanGH_cons_fail (tryMatchGH_head_ne (by decide))]
  rw [scanGH_cons_fail (tryMatchGH_head_ne (by decide))]
  have hdec : ∀ a ∈ repo.toList, (fun c => decide (c ≠ '/')) a = true := by
    intro a ha
    simpa using hrs a ha
  have hr3 : (repo.toList ++ suf.toList).takeWhile (fun c => decide (c ≠ '/'))
      = repo.toList := by
    rcases hsuf with hsuf | ⟨q, hsuf⟩
    · have hs0 : suf.toList = [] := by rw [hsuf]; rfl
      rw [hs0, List.append_nil]
      exact takeWhile_all hdec
    · rw [hsuf, takeWhile_append_all _ hdec]
      rw [List.takeWhile_cons, if_neg (by simp), List.append_nil]
  have hm := tryMatchGH_eq owner.toList (toList_ne_nil ho) hos (repo.toList ++ suf.toList)
  rw [hr3, if_neg (toList_ne_nil hr)] at hm
  have hm2 : tryMatchGH ('g' :: ("ithub.com/".toList ++
      (owner.toList ++ '/' :: (repo.toList ++ suf.toList)))) = some (owner, repo) := hm
  show scanGH ('g' :: ("ithub.com/".toList ++
      (owner.toList ++ '/' :: (repo.toList ++ suf.toList)))) = some (owner, repo)
  exact scanGH_cons_some hm2

theorem fetchGitHubCommit_of_parse_none {url : String} (h : parseGitHubUrl url = none)
    (hash : String) (token : Option String) (w : GitHubResult) (uuid : String) :
    fetchGitHubCommit url hash token w uuid = .error .invalidUrl := by
  unfold fetchGitHubCommit
  rw [h]

-- ## String extensionality and diff-transcript lemmas

theorem str_ext {a b : String} (h : a.data = b.data) : a = b := by
  cases a
  cases b
  cases h
  rfl

theorem strContains_middle (a m b : String) : strContains (a ++ (m ++ b)) m = true := by
  unfold strContains
  rw [toList_append, toList_append]
  have := hasSubstr_middle a.toList m.toList b.toList
  simpa [List.append_assoc] using this

theorem strStarts_append (a b : String) : strStarts (a ++ b) a = true := by
  unfold strStarts
  rw [toList_append]
  exact substrAt_append_self a.toList b.toList

theorem diffBody_append (f : String → ContentResult) (l1 l2 : List Change) :
    diffBody f (l1 ++ l2) = diffBody f l1 ++ diffBody f l2 := by
  induction l1 with
  | nil => rfl
  | cons x xs ih =>
      show changeBlock f x ++ diffBody f (xs ++ l2)
        = changeBlock f x ++ diffBody f xs ++ diffBody f l2
      rw [ih, String.append_assoc]

theorem buildDiff_starts (cr : ChangesResult) (f : String → ContentResult) :
    strStarts (buildDiff cr f) "## Changes Summary" = true := by
  unfold buildDiff
  have h1 : ("## Changes Summary\n" : String)
      = "## Changes Summary" ++ "\n" := rfl
  rw [h1, String.append_assoc]
  exact strStarts_append _ _

theorem fetchAzureCommit_ok {url : String} {pr : String × String × String}
    (hp : parseAzureUrl url = some pr) (hash uuid : String) (meta : AzureCommitData)
    (cr : ChangesResult) (hcr : cr ≠ .throwErr) (f : String → ContentResult) :
    fetchAzureCommit url hash ⟨.ok meta, cr, f⟩ uuid
      = .ok { id := uuid
            , hash := takeChars meta.commitId 7
            , message := meta.comment
            , diff := buildDiff cr f
            , author := meta.authorName
            , date := meta.authorDate
            , source := .AZURE } := by
  unfold fetchAzureCommit
  rw [hp]
  cases cr with
  | ok chs => rfl
  | failStatus => rfl
  | throwErr => exact absurd rfl hcr

theorem fileContentBlock_ok (text : String) :
    fileContentBlock (.ok text) =
      if text.length < 30000 ∧ text.toList.contains nulChar = false then
        "```\n" ++ takeChars text 5000
          ++ (if 5000 < text.length then "\n... (truncated)" else "")
          ++ "\n```\n"
      else "(File too large or binary, content skipped)\n" := by
  unfold fileContentBlock
  by_cases h1 : text.length < 30000
  · by_cases h2 : text.toList.contains nulChar = true
    · simp [h1, h2]
    · by_cases h3 : 5000 < text.length
      · simp [h1, h2, h3]
      · simp [h1, h2, h3]
  · simp [h1]

theorem changeBlock_eligible (f : String → ContentResult) (ch : Change)
    (hty : ch.changeType = "edit" ∨ ch.changeType = "add")
    (hfold : ch.item.isFolder = false) :
    changeBlock f ch = "\nFile: " ++ ch.item.path ++ " [" ++ ch.changeType ++ "]\n"
      ++ fileContentBlock (f ch.item.url) ++ "---\n" := by
  unfold changeBlock
  have hcond : ((ch.changeType == "edit" || ch.changeType == "add")
      && !ch.item.isFolder) = true := by
    rcases hty with hty | hty <;> simp [hty, hfold]
  rw [if_pos hcond]

theorem changeBlock_not_eligible (f : String → ContentResult) (ch : Change)
    (h : ¬ (((ch.changeType == "edit" || ch.changeType == "add")
      && !ch.item.isFolder) = true)) :
    changeBlock f ch = "\nFile: " ++ ch.item.path ++ " [" ++ ch.changeType ++ "]\n"
      ++ "" ++ "---\n" := by
  unfold changeBlock
  rw [if_neg h]

theorem buildDiff_ok_decomp (f : String → ContentResult) (pre post : List Change)
    (ch : Change) :
    buildDiff (.ok (pre ++ ch :: post)) f
      = ("## Changes Summary\n" ++ diffBody f pre)
        ++ (changeBlock f ch ++ (diffBody f post
            ++ (if (pre ++ ch :: post).length = 0
                then "No file changes found in this commit." else ""))) := by
  unfold buildDiff
  dsimp only
  rw [diffBody_append]
  simp only [diffBody]
  apply str_ext
  simp [String.data_append, List.append_assoc]

theorem strContains_append_right (a m : String) : strContains (a ++ m) m = true := by
  unfold strContains
  rw [toList_append]
  exact hasSubstr_append_right a.toList m.toList

theorem strContains_block (a h m s b : String) :
    strContains (a ++ (h ++ m ++ s ++ b)) m = true := by
  have hX : a ++ (h ++ m ++ s ++ b) = (a ++ h) ++ (m ++ (s ++ b)) := by
    apply str_ext
    simp [String.data_append, List.append_assoc]
  rw [hX]
  exact strContains_middle _ _ _

theorem foldl_handleAddCommit (cs : List Commit) (acc : List Commit) :
    cs.foldl handleAddCommit acc = acc ++ cs := by
  induction cs generalizing acc with
  | nil => simp
  | cons x xs ih =>
      show xs.foldl handleAddCommit (acc ++ [x]) = acc ++ x :: xs
      rw [ih]
      simp

theorem removeCommit_length {cs : List Commit} {c : Commit}
    (hmem : c ∈ cs) (hnodup : (cs.map Commit.id).Nodup) :
    (handleRemoveCommit cs c.id).length + 1 = cs.length := by
  induction cs with
  | nil => simp at hmem
  | cons y ys ih =>
      have hy : y.id ∉ ys.map Commit.id := (List.nodup_cons.mp hnodup).1
      have hys : (ys.map Commit.id).Nodup := (List.nodup_cons.mp hnodup).2
      rcases List.mem_cons.mp hmem with hc | hc
      · subst hc
        have hall : handleRemoveCommit ys c.id = ys := by
          unfold handleRemoveCommit
          rw [List.filter_eq_self]
          intro x hx
          simp only [decide_eq_true_eq]
          intro he
          exact hy (by rw [← he]; exact List.mem_map_of_mem Commit.id hx)
        show (List.filter _ (c :: ys)).length + 1 = ys.length + 1
        rw [List.filter_cons_of_neg (by simp)]
        have := congrArg List.length hall
        unfold handleRemoveCommit at this
        rw [this]
      · have hne : y.id ≠ c.id := by
          intro he
          exact hy (by rw [he]; exact List.mem_map_of_mem Commit.id hc)
        show (List.filter _ (y :: ys)).length + 1 = ys.length + 1
        rw [List.filter_cons_of_pos (by simpa using hne)]
        rw [List.length_cons]
        have := ih hc hys
        unfold handleRemoveCommit at this
        rw [this]

-- ## Claim theorems

/-- Claim C6: `generateDocumentation` never propagates a failure to its
caller: a text-generation call that throws with message `m` yields a
returned string that is the fixed error document, begins with
`# Generation Failed`, and contains `m` as a substring; a successful
call carrying no text (absent or empty) yields the fixed
placeholder. -/
theorem claim_C6 :
    (∀ (commits : List Commit) (config : GenerationConfig) (m : String),
      generateDocumentation commits config (.err m)
          = "# Generation Failed\n\nAn error occurred while communicating with the AI: " ++ m
        ∧ strStarts (generateDocumentation commits config (.err m)) "# Generation Failed" = true
        ∧ strContains (generateDocumentation commits config (.err m)) m = true)
    ∧ (∀ (commits : List Commit) (config : GenerationConfig),
        generateDocumentation commits config (.ok none) = "# Error: No content generated."
          ∧ generateDocumentation commits config (.ok (some ""))
              = "# Error: No content generated.") := by
  constructor
  · intro commits config m
    refine ⟨rfl, ?_, ?_⟩
    · show strStarts
        ("# Generation Failed\n\nAn error occurred while communicating with the AI: " ++ m)
        "# Generation Failed" = true
      have h1 : ("# Generation Failed\n\nAn error occurred while communicating with the AI: "
          : String) = "# Generation Failed"
            ++ "\n\nAn error occurred while communicating with the AI: " := rfl
      rw [h1, String.append_assoc]
      exact strStarts_append _ _
    · show strContains
        ("# Generation Failed\n\nAn error occurred while communicating with the AI: " ++ m)
        m = true
      exact strContains_append_right _ _
  · intro commits config
    exact ⟨rfl, rfl⟩

/-- Claim C8: for the commit store, adding commits in order then removing
one by its id yields a store with one commit fewer, the relative order
of the remainder preserved (the result is a sublist of the original
order); removing an id that is not present leaves the store
unchanged. -/
theorem claim_C8 (cs : List Commit) (c : Commit) (id2 : String)
    (hmem : c ∈ cs) (hnodup : (cs.map Commit.id).Nodup)
    (hid2 : id2 ∉ cs.map Commit.id) :
    cs.foldl handleAddCommit [] = cs
    ∧ (handleRemoveCommit (cs.foldl handleAddCommit []) c.id).length + 1 = cs.length
    ∧ List.Sublist (handleRemoveCommit (cs.foldl handleAddCommit []) c.id) cs
    ∧ handleRemoveCommit (cs.foldl handleAddCommit []) id2 = cs.foldl handleAddCommit [] := by
  have hstore : cs.foldl handleAddCommit [] = cs := by
    rw [foldl_handleAddCommit]
    simp
  refine ⟨hstore, ?_, ?_, ?_⟩
  · rw [hstore]
    exact removeCommit_length hmem hnodup
  · rw [hstore]
    exact List.filter_sublist cs
  · rw [hstore]
    unfold handleRemoveCommit
    rw [List.filter_eq_self]
    intro x hx
    simp only [decide_eq_true_eq]
    intro he
    exact hid2 (by rw [← he]; exact List.mem_map_of_mem Commit.id hx)

/-- Witness for C8 at a concrete three-commit store. -/
theorem claim_C8_witness :
    letI c1 : Commit := ⟨"1", "h1", "m1", "d1", none, none, .MANUAL⟩
    letI c2 : Commit := ⟨"2", "h2", "m2", "d2", none, none, .MANUAL⟩
    letI c3 : Commit := ⟨"3", "h3", "m3", "d3", none, none, .MANUAL⟩
    [c1, c2, c3].foldl handleAddCommit [] = [c1, c2, c3]
    ∧ (handleRemoveCommit ([c1, c2, c3].foldl handleAddCommit []) c2.id).length + 1
        = [c1, c2, c3].length
    ∧ List.Sublist (handleRemoveCommit ([c1, c2, c3].foldl handleAddCommit []) c2.id)
        [c1, c2, c3]
    ∧ handleRemoveCommit ([c1, c2, c3].foldl handleAddCommit []) "9"
        = [c1, c2, c3].foldl handleAddCommit [] :=
  claim_C8 _ _ "9" (by decide) (by decide) (by decide)

/-- Claim C9 counterexample: a concrete manual entry has a present
`date` field (the creation timestamp), contradicting the claim that
`date` is absent for manual commits. -/
theorem claim_C9_counterexample :
    (handleManualAdd "uuid-1" "2026-02-03T04:05:06.000Z" "diff text" "msg").bind Commit.date
        = some "2026-02-03T04:05:06.000Z"
    ∧ (handleManualAdd "uuid-1" "2026-02-03T04:05:06.000Z" "diff text" "msg").bind Commit.date
        ≠ none := by
  constructor
  · decide
  · decide

/-- Claim C9 (amended): for every commit created by manual entry the
`author` field is absent but the `date` field is present, set to the
creation timestamp; the `hash` field is the literal sentinel
`manual`, and an empty message is replaced by the fixed placeholder
`Manual Diff Entry`. -/
theorem claim_C9 (uuid now diff msg : String) (h : diff ≠ "") :
    handleManualAdd uuid now diff msg
      = some { id := uuid
             , hash := "manual"
             , message := if msg = "" then "Manual Diff Entry" else msg
             , diff := diff
             , author := none
             , date := some now
             , source := .MANUAL } := by
  unfold handleManualAdd
  rw [if_neg h]

/-- Witness for C9 at a concrete manual entry with an empty message. -/
theorem claim_C9_witness :
    handleManualAdd "u1" "2026-02-03T04:05:06.000Z" "some diff" ""
      = some { id := "u1"
             , hash := "manual"
             , message := if "" = "" then "Manual Diff Entry" else ""
             , diff := "some diff"
             , author := none
             , date := some "2026-02-03T04:05:06.000Z"
             , source := .MANUAL } :=
  claim_C9 "u1" "2026-02-03T04:05:06.000Z" "some diff" "" (by decide)

/-- Claim C10: every Commit returned by the Azure fetch has a diff that
begins with the fixed header line `## Changes Summary`, whatever the
outcome of the changes request and the per-file content requests. -/
theorem claim_C10 (url hash uuid : String) (w : AzureWorld) (c : Commit)
    (h : fetchAzureCommit url hash w uuid = .ok c) :
    strStarts c.diff "## Changes Summary" = true := by
  unfold fetchAzureCommit at h
  cases hp : parseAzureUrl url with
  | none => rw [hp] at h; exact absurd h (by simp)
  | some pr =>
      rw [hp] at h
      dsimp only at h
      cases hm : w.commitMeta with
      | status401 => rw [hm] at h; exact absurd h (by simp)
      | failStatus m => rw [hm] at h; exact absurd h (by simp)
      | throwErr => rw [hm] at h; exact absurd h (by simp)
      | ok meta =>
          rw [hm] at h
          dsimp only at h
          cases hc : w.changes with
          | throwErr => rw [hc] at h; exact absurd h (by simp)
          | ok chs =>
              rw [hc] at h
              dsimp only at h
              cases Except.ok.inj h
              exact buildDiff_starts _ _
          | failStatus =>
              rw [hc] at h
              dsimp only at h
              cases Except.ok.inj h
              exact buildDiff_starts _ _

/-- Witness for C10 at a concrete fetch whose changes request fails. -/
theorem claim_C10_witness :
    strStarts (Commit.diff
      { id := "u", hash := "abcdef1", message := "msg"
      , diff := "## Changes Summary\nCould not fetch changes list from Azure API."
      , author := none, date := none, source := .AZURE }) "## Changes Summary" = true :=
  claim_C10 "https://dev.azure.com/o/p/_git/r" "abc" "u"
    ⟨.ok ⟨"abcdef1234", "msg", none, none⟩, .failStatus, fun _ => .failStatus⟩
    _ rfl

/-- Claim C7: a successful repository listing returns the mapped items
sorted ascending by name under the locale comparison (every adjacent
pair is ordered, and the output is a permutation of the input); the
documented example order holds; and an empty provider result yields a
valid empty list rather than a failure. -/
theorem claim_C7 :
    (∀ (orgInput token : String) (value : List RepoRaw),
        fetchAzureRepositories orgInput token (.ok value)
          = .ok (sortWith repoNameLe (value.map toAzureRepository))
        ∧ (sortWith repoNameLe (value.map toAzureRepository)).Pairwise
            (fun a b => repoNameLe a b = true)
        ∧ (sortWith repoNameLe (value.map toAzureRepository)).Perm
            (value.map toAzureRepository))
    ∧ fetchAzureRepositories "org" "tok"
        (.ok [⟨"1", "zeta", "w1", "p1"⟩, ⟨"2", "alpha", "w2", "p2"⟩, ⟨"3", "Beta", "w3", "p3"⟩])
        = .ok [⟨"2", "alpha", "w2", "p2"⟩, ⟨"3", "Beta", "w3", "p3"⟩, ⟨"1", "zeta", "w1", "p1"⟩]
    ∧ (∀ orgInput token : String, fetchAzureRepositories orgInput token (.ok []) = .ok []) := by
  refine ⟨?_, ?_, ?_⟩
  · intro orgInput token value
    refine ⟨rfl, ?_, ?_⟩
    · exact sortWith_pairwise
        (fun (a b : AzureRepository) => localeLe_total a.name b.name)
        (fun {a b c : AzureRepository} h1 h2 => localeLe_trans h1 h2) _
    · exact sortWith_perm _ _
  · rfl
  · intro orgInput token
    rfl

/-- Claim C2: in the Azure fetch, when the commit-metadata request
succeeds but the changed-files request returns a non-success status,
the operation still returns a Commit built from the fetched metadata
whose diff is the header plus a note that the changes list could not
be retrieved. -/
theorem claim_C2 (url hash uuid : String) (meta : AzureCommitData)
    (f : String → ContentResult) (pr : String × String × String)
    (hp : parseAzureUrl url = some pr) :
    fetchAzureCommit url hash ⟨.ok meta, .failStatus, f⟩ uuid
      = .ok { id := uuid
            , hash := takeChars meta.commitId 7
            , message := meta.comment
            , diff := "## Changes Summary\nCould not fetch changes list from Azure API."
            , author := meta.authorName
            , date := meta.authorDate
            , source := .AZURE }
    ∧ strContains "## Changes Summary\nCould not fetch changes list from Azure API."
        "Could not fetch changes list" = true := by
  constructor
  · exact fetchAzureCommit_ok hp hash uuid meta .failStatus (by simp) f
  · decide

/-- Witness for C2 at a concrete URL and metadata. -/
theorem claim_C2_witness :
    fetchAzureCommit "https://dev.azure.com/o/p/_git/r" "abc"
        ⟨.ok ⟨"abcdef1234", "msg", some "an author", some "2024-01-01"⟩,
         .failStatus, fun _ => .failStatus⟩ "u"
      = .ok { id := "u"
            , hash := takeChars "abcdef1234" 7
            , message := "msg"
            , diff := "## Changes Summary\nCould not fetch changes list from Azure API."
            , author := some "an author"
            , date := some "2024-01-01"
            , source := .AZURE }
    ∧ strContains "## Changes Summary\nCould not fetch changes list from Azure API."
        "Could not fetch changes list" = true :=
  claim_C2 "https://dev.azure.com/o/p/_git/r" "abc" "u"
    ⟨"abcdef1234", "msg", some "an author", some "2024-01-01"⟩
    (fun _ => .failStatus) ("o", "p", "r") (by decide)

/-- Claim C1: in the Azure fetch, for a changed file of type `edit` or
`add` that is not a folder and whose content request succeeds with
body `text`, the operation returns a Commit whose diff embeds: when
`text` has fewer than 30000 characters and no NUL byte, the first
5000 characters fenced as a code block with a `(truncated)` marker
appended exactly when the text exceeds 5000 characters; otherwise a
skipped-as-too-large-or-binary note. -/
theorem claim_C1 (url hash uuid : String) (meta : AzureCommitData)
    (pre post : List Change) (ch : Change) (f : String → ContentResult)
    (text : String) (pr : String × String × String)
    (hp : parseAzureUrl url = some pr)
    (hty : ch.changeType = "edit" ∨ ch.changeType = "add")
    (hfold : ch.item.isFolder = false)
    (htext : f ch.item.url = .ok text) :
    ∃ c, fetchAzureCommit url hash ⟨.ok meta, .ok (pre ++ ch :: post), f⟩ uuid = .ok c
      ∧ strContains c.diff
          (if text.length < 30000 ∧ text.toList.contains nulChar = false then
            "```\n" ++ takeChars text 5000
              ++ (if 5000 < text.length then "\n... (truncated)" else "")
              ++ "\n```\n"
          else "(File too large or binary, content skipped)\n") = true := by
  refine ⟨_, fetchAzureCommit_ok hp hash uuid meta (.ok (pre ++ ch :: post)) (by simp) f, ?_⟩
  show strContains (buildDiff (.ok (pre ++ ch :: post)) f) _ = true
  rw [buildDiff_ok_decomp, changeBlock_eligible f ch hty hfold, htext, fileContentBlock_ok]
  exact strContains_block _ _ _ _ _

/-- Witness for C1 at a concrete eligible change with a short text. -/
theorem claim_C1_witness :
    ∃ c, fetchAzureCommit "https://dev.azure.com/o/p/_git/r" "abc"
        ⟨.ok ⟨"abcdef1234", "msg", none, none⟩,
         .ok [⟨⟨"/f.txt", "u1", false⟩, "edit"⟩],
         fun _ => .ok "hello"⟩ "u" = .ok c
      ∧ strContains c.diff
          (if ("hello" : String).length < 30000
              ∧ ("hello" : String).toList.contains nulChar = false then
            "```\n" ++ takeChars "hello" 5000
              ++ (if 5000 < ("hello" : String).length then "\n... (truncated)" else "")
              ++ "\n```\n"
          else "(File too large or binary, content skipped)\n") = true :=
  claim_C1 "https://dev.azure.com/o/p/_git/r" "abc" "u"
    ⟨"abcdef1234", "msg", none, none⟩ [] []
    ⟨⟨"/f.txt", "u1", false⟩, "edit"⟩ (fun _ => .ok "hello") "hello"
    ("o", "p", "r") (by decide) (Or.inl rfl) rfl rfl

/-- Claim C3 counterexample: a per-file content request that returns a
non-success HTTP status (not a thrown error) embeds no note at all —
the returned diff consists of only the header, the file line and the
separator, and does not contain the `(Could not fetch file content)`
note the claim requires for every failed content request. -/
theorem claim_C3_counterexample :
    fetchAzureCommit "https://dev.azure.com/o/p/_git/r" "abc"
        ⟨.ok ⟨"abcdef1234", "msg", none, none⟩,
         .ok [⟨⟨"/f.txt", "u1", false⟩, "edit"⟩],
         fun _ => .failStatus⟩ "u"
      = .ok { id := "u", hash := "abcdef1", message := "msg"
            , diff := "## Changes Summary\n\nFile: /f.txt [edit]\n---\n"
            , author := none, date := none, source := .AZURE }
    ∧ strContains "## Changes Summary\n\nFile: /f.txt [edit]\n---\n"
        "(Could not fetch file content)" = false := by
  constructor
  · rfl
  · decide

/-- Claim C3 (amended): in the Azure fetch, a per-file content request
that throws (a network/transport error) embeds a note that the
content could not be fetched; a content response with a non-success
HTTP status embeds nothing for that file (only its header line and
separator).  In both cases the failure is swallowed: the remaining
files are still processed in order and the overall operation still
returns a Commit. -/
theorem claim_C3 (url hash uuid : String) (meta : AzureCommitData)
    (pre post : List Change) (ch : Change) (f : String → ContentResult)
    (pr : String × String × String)
    (hp : parseAzureUrl url = some pr)
    (hty : ch.changeType = "edit" ∨ ch.changeType = "add")
    (hfold : ch.item.isFolder = false) :
    fetchAzureCommit url hash ⟨.ok meta, .ok (pre ++ ch :: post), f⟩ uuid
      = .ok { id := uuid
            , hash := takeChars meta.commitId 7
            , message := meta.comment
            , diff := buildDiff (.ok (pre ++ ch :: post)) f
            , author := meta.authorName
            , date := meta.authorDate
            , source := .AZURE }
    ∧ (f ch.item.url = .throwErr →
        changeBlock f ch = "\nFile: " ++ ch.item.path ++ " [" ++ ch.changeType ++ "]\n"
            ++ "(Could not fetch file content)\n" ++ "---\n"
          ∧ strContains (buildDiff (.ok (pre ++ ch :: post)) f)
              "(Could not fetch file content)\n" = true)
    ∧ (f ch.item.url = .failStatus →
        changeBlock f ch = "\nFile: " ++ ch.item.path ++ " [" ++ ch.changeType ++ "]\n"
            ++ "" ++ "---\n")
    ∧ diffBody f (pre ++ ch :: post)
        = diffBody f pre ++ changeBlock f ch ++ diffBody f post := by
  refine ⟨fetchAzureCommit_ok hp hash uuid meta (.ok (pre ++ ch :: post)) (by simp) f,
    ?_, ?_, ?_⟩
  · intro hf
    constructor
    · rw [changeBlock_eligible f ch hty hfold, hf]
      rfl
    · rw [buildDiff_ok_decomp, changeBlock_eligible f ch hty hfold, hf]
      show strContains (_ ++ (_ ++ "(Could not fetch file content)\n" ++ _ ++ _)) _ = true
      exact strContains_block _ _ _ _ _
  · intro hf
    rw [changeBlock_eligible f ch hty hfold, hf]
    rfl
  · rw [diffBody_append]
    show diffBody f pre ++ (changeBlock f ch ++ diffBody f post) = _
    rw [String.append_assoc]

/-- Witness for C3 at a concrete change whose content request throws. -/
theorem claim_C3_witness :
    fetchAzureCommit "https://dev.azure.com/o/p/_git/r" "abc"
        ⟨.ok ⟨"abcdef1234", "msg", none, none⟩,
         .ok ([] ++ (⟨⟨"/f.txt", "u1", false⟩, "edit"⟩ : Change) :: []),
         fun _ => .throwErr⟩ "u"
      = .ok { id := "u"
            , hash := takeChars "abcdef1234" 7
            , message := "msg"
            , diff := buildDiff
                (.ok ([] ++ (⟨⟨"/f.txt", "u1", false⟩, "edit"⟩ : Change) :: []))
                (fun _ => .throwErr)
            , author := none
            , date := none
            , source := .AZURE }
    ∧ ((fun _ => ContentResult.throwErr) "u1" = .throwErr →
        changeBlock (fun _ => .throwErr) ⟨⟨"/f.txt", "u1", false⟩, "edit"⟩
            = "\nFile: " ++ "/f.txt" ++ " [" ++ "edit" ++ "]\n"
              ++ "(Could not fetch file content)\n" ++ "---\n"
          ∧ strContains (buildDiff
              (.ok ([] ++ (⟨⟨"/f.txt", "u1", false⟩, "edit"⟩ : Change) :: []))
              (fun _ => .throwErr)) "(Could not fetch file content)\n" = true)
    ∧ ((fun _ => ContentResult.throwErr) "u1" = .failStatus →
        changeBlock (fun _ => .throwErr) ⟨⟨"/f.txt", "u1", false⟩, "edit"⟩
            = "\nFile: " ++ "/f.txt" ++ " [" ++ "edit" ++ "]\n" ++ "" ++ "---\n")
    ∧ diffBody (fun _ => .throwErr) ([] ++ (⟨⟨"/f.txt", "u1", false⟩, "edit"⟩ : Change) :: [])
        = diffBody (fun _ => .throwErr) []
          ++ changeBlock (fun _ => .throwErr) ⟨⟨"/f.txt", "u1", false⟩, "edit"⟩
          ++ diffBody (fun _ => .throwErr) [] :=
  claim_C3 "https://dev.azure.com/o/p/_git/r" "abc" "u"
    ⟨"abcdef1234", "msg", none, none⟩ [] []
    ⟨⟨"/f.txt", "u1", false⟩, "edit"⟩ (fun _ => .throwErr)
    ("o", "p", "r") (by decide) (Or.inl rfl) rfl

/-- Claim C4: for GitHub repository URLs of the form
`https://github.com/owner/repo[...]` with two nonempty slash-free
segments, the parse extracts exactly those two segments; for any
input string in which no `github.com/` occurrence is followed by two
path parts (no match of the regular expression exists), the fetch
fails with InvalidUrl for every request outcome, that is, before any
network call. -/
theorem claim_C4 :
    (∀ owner repo suf : String,
        owner ≠ "" → (∀ a ∈ owner.toList, a ≠ '/') →
        repo ≠ "" → (∀ a ∈ repo.toList, a ≠ '/') →
        (suf = "" ∨ ∃ q, suf.toList = '/' :: q) →
        parseGitHubUrl ("https://github.com/" ++ owner ++ "/" ++ repo ++ suf)
          = some (owner, repo))
    ∧ (∀ url : String, ¬ ghShape url →
        parseGitHubUrl url = none
        ∧ ∀ (hash : String) (token : Option String) (w : GitHubResult) (uuid : String),
            fetchGitHubCommit url hash token w uuid = .error .invalidUrl) := by
  constructor
  · intro owner repo suf h1 h2 h3 h4 h5
    exact parseGitHubUrl_eq owner repo suf h1 h2 h3 h4 h5
  · intro url h
    have hn := parseGitHubUrl_none_of_not_shape h
    exact ⟨hn, fun hash token w uuid => fetchGitHubCommit_of_parse_none hn hash token w uuid⟩

/-- Witness for C4: a concrete well-formed GitHub URL parses to its two
segments, and a concrete URL with no `github.com` match is rejected
with InvalidUrl whatever the oracle. -/
theorem claim_C4_witness :
    parseGitHubUrl ("https://github.com/" ++ "octocat" ++ "/" ++ "hello" ++ "")
        = some ("octocat", "hello")
    ∧ fetchGitHubCommit "https://gitlab.com/a/b" "abc" none .throwErr "u"
        = .error .invalidUrl := by
  constructor
  · exact claim_C4.1 "octocat" "hello" ""
      (by decide) (by decide) (by decide) (by decide) (Or.inl rfl)
  · exact (claim_C4.2 "https://gitlab.com/a/b"
      (not_ghShape_of_parse_none (by decide))).2 "abc" none .throwErr "u"

/-- Claim C5: for valid `dev.azure.com/org/project/_git/repo` and
`org.visualstudio.com/project/_git/repo` URLs the Azure parser
extracts exactly the three segments; for URLs whose path has no
`_git` segment, and for URLs truncated so that the segment after
`_git` is missing, parsing fails and the Azure fetch fails with
InvalidUrl for every request oracle, that is, before any network
call. -/
theorem claim_C5 :
    (∀ org project repo : String,
        org ≠ "" → (∀ a ∈ org.toList, a ≠ '/') → org ≠ "_git" →
        project ≠ "" → (∀ a ∈ project.toList, a ≠ '/') → project ≠ "_git" →
        repo ≠ "" → (∀ a ∈ repo.toList, a ≠ '/') →
        parseAzureUrl ("https://dev.azure.com/" ++ org ++ "/" ++ project ++ "/_git/" ++ repo)
          = some (org, project, repo))
    ∧ (∀ org project repo : String,
        org ≠ "" → (∀ a ∈ org.toList, a ≠ '/') → (∀ a ∈ org.toList, a ≠ '.') →
        project ≠ "" → (∀ a ∈ project.toList, a ≠ '/') → project ≠ "_git" →
        repo ≠ "" → (∀ a ∈ repo.toList, a ≠ '/') →
        parseAzureUrl ("https://" ++ org ++ ".visualstudio.com/" ++ project ++ "/_git/" ++ repo)
          = some (org, project, repo))
    ∧ (∀ (host : String) (segs : List String),
        host ≠ "" → (∀ a ∈ host.toList, a ≠ '/') →
        (∀ s ∈ segs, s ≠ "" ∧ ∀ a ∈ s.toList, a ≠ '/') →
        "_git" ∉ segs →
        parseAzureUrl ("https://" ++ host ++ "/" ++ (joinSegs segs).asString) = none
        ∧ ∀ (hash : String) (w : AzureWorld) (uuid : String),
            fetchAzureCommit ("https://" ++ host ++ "/" ++ (joinSegs segs).asString)
              hash w uuid = .error .invalidUrl)
    ∧ (∀ (host : String) (segs : List String),
        host ≠ "" → (∀ a ∈ host.toList, a ≠ '/') →
        (∀ s ∈ segs, s ≠ "" ∧ ∀ a ∈ s.toList, a ≠ '/') →
        "_git" ∉ segs →
        parseAzureUrl ("https://" ++ host ++ "/" ++ (joinSegs (segs ++ ["_git"])).asString)
            = none
        ∧ ∀ (hash : String) (w : AzureWorld) (uuid : String),
            fetchAzureCommit
              ("https://" ++ host ++ "/" ++ (joinSegs (segs ++ ["_git"])).asString)
              hash w uuid = .error .invalidUrl) := by
  refine ⟨?_, ?_, ?_, ?_⟩
  · intro org project repo h1 h2 h3 h4 h5 h6 h7 h8
    exact parseAzureUrl_dev org project repo h1 h2 h3 h4 h5 h6 h7 h8
  · intro org project repo h1 h2 h3 h4 h5 h6 h7 h8
    exact parseAzureUrl_vs org project repo h1 h2 h3 h4 h5 h6 h7 h8
  · intro host segs h1 h2 h3 h4
    have hn := parseAzureUrl_no_git host segs h1 h2 h3 h4
    exact ⟨hn, fun hash w uuid => fetchAzureCommit_of_parse_none hn hash w uuid⟩
  · intro host segs h1 h2 h3 h4
    have hn := parseAzureUrl_git_last host segs h1 h2 h3 h4
    exact ⟨hn, fun hash w uuid => fetchAzureCommit_of_parse_none hn hash w uuid⟩

/-- Witness for C5: concrete instances of the two valid URL forms, a
concrete URL with no `_git` segment, and a concrete URL truncated
right after `_git`. -/
theorem claim_C5_witness :
    parseAzureUrl ("https://dev.azure.com/" ++ "myorg" ++ "/" ++ "proj" ++ "/_git/" ++ "repo")
        = some ("myorg", "proj", "repo")
    ∧ parseAzureUrl ("https://" ++ "myorg" ++ ".visualstudio.com/" ++ "proj"
          ++ "/_git/" ++ "repo")
        = some ("myorg", "proj", "repo")
    ∧ fetchAzureCommit ("https://" ++ "dev.azure.com" ++ "/"
          ++ (joinSegs ["myorg", "proj", "repo"]).asString) "abc"
        ⟨.ok ⟨"c", "m", none, none⟩, .failStatus, fun _ => .failStatus⟩ "u"
        = .error .invalidUrl
    ∧ fetchAzureCommit ("https://" ++ "dev.azure.com" ++ "/"
          ++ (joinSegs (["myorg", "proj"] ++ ["_git"])).asString) "abc"
        ⟨.ok ⟨"c", "m", none, none⟩, .failStatus, fun _ => .failStatus⟩ "u"
        = .error .invalidUrl := by
  refine ⟨?_, ?_, ?_, ?_⟩
  · exact claim_C5.1 "myorg" "proj" "repo" (by decide) (by decide) (by decide)
      (by decide) (by decide) (by decide) (by decide) (by decide)
  · exact claim_C5.2.1 "myorg" "proj" "repo" (by decide) (by decide) (by decide)
      (by decide) (by decide) (by decide) (by decide) (by decide)
  · exact ((claim_C5.2.2.1 "dev.azure.com" ["myorg", "proj", "repo"]
      (by decide) (by decide) (by decide) (by decide)).2) "abc"
      ⟨.ok ⟨"c", "m", none, none⟩, .failStatus, fun _ => .failStatus⟩ "u"
  · exact ((claim_C5.2.2.2 "dev.azure.com" ["myorg", "proj"]
      (by decide) (by decide) (by decide) (by decide)).2) "abc"
      ⟨.ok ⟨"c", "m", none, none⟩, .failStatus, fun _ => .failStatus⟩ "u"
